import Mathlib

/-!
Verification of the slash-sandbox tree construction core against its design
specification.

Part 1 embeds the packed octree node encoding from
`nih/octree/octree_inline.h`: a node is a single 32-bit word
(`m_packed_info`), the low 8 bits holding the child mask and the high 24 bits
the child offset. Machine `uint32` values are embedded as `Nat` with an
explicit `% 2 ^ 32` wherever a C operation can wrap (left shifts); `&`, `|`
and `>>` on in-range operands never exceed 32 bits, so they are embedded as
the plain `Nat` bitwise operations.

Part 2 embeds the binary radix tree builder from
`nih/bintree/cuda/bintree_gen_inline.h` as a sequential state machine: the
warp-cooperative allocator hands out slot ranges in task order, which is the
natural linearization of a kernel launch (the design states task order is
immaterial), and the tree-writer capability is recorded as the list of
`write_node` / `write_leaf` calls it receives.
-/

namespace SlashSandbox

/-! ### Part 1: packed octree node encoding (`octree_inline.h`) -/

/-- Population count, fuel-driven so that it reduces in the kernel.
The fuel `n` always suffices because `n / 2` halves at each step. -/
def popcAux : Nat → Nat → Nat
  | 0, _ => 0
  | fuel + 1, n => if n = 0 then 0 else n % 2 + popcAux fuel (n / 2)

/-- `popc` from `nih/basic`: number of set bits of a machine word. -/
def popc (n : Nat) : Nat := popcAux n n

/-- Modelled from the spec: `kInvalid` (declared in headers outside the
sources) is the sentinel "invalid child" value, `uint32(-1)`. The claims only
use it as an opaque sentinel; its numeric value never matters. -/
def kInvalid : Nat := 4294967295

/-- `Octree_node_base`: one packed 32-bit word per node. -/
structure Octree_node_base where
  m_packed_info : Nat
deriving DecidableEq, Repr

/-- Leaf constructor: `m_packed_info( leaf_index << 8u )`. -/
def Octree_node_base.ofLeaf (leaf_index : Nat) : Octree_node_base :=
  ⟨(leaf_index <<< 8) % 2 ^ 32⟩

/-- Full constructor: `m_packed_info( (index << 8u) & mask )`.
The source combines the shifted index and the mask with `&`. -/
def Octree_node_base.ofMaskIndex (mask index : Nat) : Octree_node_base :=
  ⟨((index <<< 8) % 2 ^ 32) &&& mask⟩

/-- `is_leaf`: true iff the child mask is zero. -/
def Octree_node_base.is_leaf (n : Octree_node_base) : Bool :=
  decide (n.m_packed_info &&& 0xFF = 0)

/-- `set_child_mask`: `m_packed_info = (m_packed_info & 0xFFFFFF00u) | mask`. -/
def Octree_node_base.set_child_mask (n : Octree_node_base) (mask : Nat) :
    Octree_node_base :=
  ⟨(n.m_packed_info &&& 0xFFFFFF00) ||| mask⟩

/-- `get_child_mask`: `m_packed_info & 0x000000FFu`. -/
def Octree_node_base.get_child_mask (n : Octree_node_base) : Nat :=
  n.m_packed_info &&& 0xFF

/-- `set_child_offset`: `m_packed_info = (m_packed_info & 0x000000FFu) | (child << 8u)`. -/
def Octree_node_base.set_child_offset (n : Octree_node_base) (child : Nat) :
    Octree_node_base :=
  ⟨(n.m_packed_info &&& 0xFF) ||| ((child <<< 8) % 2 ^ 32)⟩

/-- `get_child_offset`: `m_packed_info >> 8u`. -/
def Octree_node_base.get_child_offset (n : Octree_node_base) : Nat :=
  n.m_packed_info >>> 8

/-- `is_active`: bit `i` of the packed word. -/
def Octree_node_base.is_active (n : Octree_node_base) (i : Nat) : Bool :=
  decide (n.m_packed_info &&& (1 <<< i) ≠ 0)

/-- `get_child`: `(m_packed_info >> 8u) + i`. -/
def Octree_node_base.get_child (n : Octree_node_base) (i : Nat) : Nat :=
  (n.m_packed_info >>> 8) + i

/-- `Octree_node<host_domain>::get_octant`: the shifted mask is truncated to
8 bits by the `uint8` cast before the population count. The mask is below
256 and the shift amount at most 8, so the `uint32` shift itself cannot wrap. -/
def get_octant_host (n : Octree_node_base) (i : Nat) : Nat :=
  let mask := n.get_child_mask
  if mask &&& (1 <<< i) ≠ 0 then
    n.get_child_offset + popc ((mask <<< (8 - i)) % 256)
  else kInvalid

/-- `Octree_node<device_domain>::get_octant`: `__popc(mask << (8u - i))` with
no truncation of the shifted mask. The mask is below 256 and the shift amount
at most 8, so the `uint32` shift itself cannot wrap. -/
def get_octant_device (n : Octree_node_base) (i : Nat) : Nat :=
  let mask := n.get_child_mask
  if mask &&& (1 <<< i) ≠ 0 then
    n.get_child_offset + popc (mask <<< (8 - i))
  else kInvalid

/-- The value the spec prescribes for an active octant lookup: the child
offset plus the number of set mask bits at positions strictly below `i`. -/
def octantSpecValue (off mask i : Nat) : Nat := off + popc (mask % 2 ^ i)


/-! ### Part 2: binary radix tree builder (`bintree_gen_inline.h`) -/

/-- `Bintree_gen_context::Split_task`: `(node, begin, end, bit level)`. The
bit level field is a 32-bit word in the source but every read of it
reinterprets it as a signed quantity (`find_leading_bit_difference` takes an
`int32` and can return `-1`), so it is embedded as `Int`. -/
structure Split_task where
  m_node : Nat
  m_begin : Nat
  m_end : Nat
  m_input : Int
deriving DecidableEq, Repr

/-- Scan of `find_leading_bit_difference` from level `l` down to 0:
stop at the first level where the codes differ, else return `-1`. -/
def flbd_scan (code0 code1 : Nat) : Nat → Int
  | 0 => if code0.testBit 0 != code1.testBit 0 then 0 else -1
  | l + 1 =>
    if code0.testBit (l + 1) != code1.testBit (l + 1) then ((l : Int) + 1)
    else flbd_scan code0 code1 l

/-- `find_leading_bit_difference(start_level, code0, code1)`: walk `level`
down from `start_level` while the two codes agree on bit `level`, returning
the level reached (`-1` when all bits down to 0 agree). When
`start_level < 0` the loop body never runs and `start_level` is returned
unchanged. -/
def find_leading_bit_difference (start_level : Int) (code0 code1 : Nat) : Int :=
  if 0 ≤ start_level then flbd_scan code0 code1 start_level.toNat else start_level

/-- The `uint32` mask `1u << level`. The stored level word is the two's
complement image of the signed level, so for a non-negative level below 32
this is the corresponding bit; any other level makes the shift amount 32 or
larger, which the device shift yields 0 for. -/
def levelMask (level : Int) : Nat :=
  if 0 ≤ level ∧ level < 32 then 2 ^ level.toNat else 0

/-- Modelled from the spec: `find_pivot` (declared in nih/basic/algorithms.h,
which is not among the sources) performs "a binary search over `[begin, end)`
for the boundary where bit `bit_level` of the key flips from 0 to 1" — a
partition-point search on a monotonic predicate. `lo` is the range start and
`n` its length; the result always lies in `[lo, lo + n]`. Fuel-driven
(`fuel = n` suffices, as the searched length shrinks at every step) so that
it reduces in the kernel. -/
def find_pivot_aux (codes : Nat → Nat) (p : Nat → Bool) : Nat → Nat → Nat → Nat
  | 0, lo, _ => lo
  | fuel + 1, lo, n =>
    if n = 0 then lo
    else
      let half := n / 2
      if p (codes (lo + half)) then find_pivot_aux codes p fuel lo half
      else find_pivot_aux codes p fuel (lo + half + 1) (n - half - 1)

/-- Modelled from the spec: see `find_pivot_aux`. -/
def find_pivot (codes : Nat → Nat) (p : Nat → Bool) (lo n : Nat) : Nat :=
  find_pivot_aux codes p n lo n

/-- One recorded `write_node(node, left, right, index)` call. -/
structure NodeWrite where
  node : Nat
  left_exists : Bool
  right_exists : Bool
  index : Nat
deriving DecidableEq, Repr

/-- One recorded `write_leaf(index, begin, end)` call. -/
structure LeafWrite where
  index : Nat
  leaf_begin : Nat
  leaf_end : Nat
deriving DecidableEq, Repr

/-- The tree-writer capability, recorded as the sequences of node and leaf
writes it receives. -/
structure TreeWriter where
  nodes : List NodeWrite
  leaves : List LeafWrite
deriving DecidableEq, Repr

def TreeWriter.write_node (w : TreeWriter) (node : Nat) (l r : Bool)
    (idx : Nat) : TreeWriter :=
  { w with nodes := w.nodes ++ [⟨node, l, r, idx⟩] }

def TreeWriter.write_leaf (w : TreeWriter) (idx b e : Nat) : TreeWriter :=
  { w with leaves := w.leaves ++ [⟨idx, b, e⟩] }

/-- State threaded through one `split_kernel` launch: the output task queue
(whose length is the output-task counter), the shared leaf counter, and the
tree writer. -/
structure SplitState where
  out_tasks : List Split_task
  leaf_count : Nat
  writer : TreeWriter
deriving DecidableEq, Repr

/-- The bit level a task is split at: the caller-provided `m_input` when
`keep_singletons` holds, otherwise the recomputed leading bit difference of
`codes[begin]` and `codes[end-1]`. -/
def split_task_level (keep_singletons : Bool) (codes : Nat → Nat)
    (t : Split_task) : Int :=
  if keep_singletons then t.m_input
  else find_leading_bit_difference t.m_input (codes t.m_begin)
    (codes (t.m_end - 1))

/-- The partitioning pivot of a task: `find_pivot(codes + begin, end - begin,
mask_and<uint32>(1u << level)) - codes`, where `mask_and` tests
`code & mask != 0`. -/
def split_task_pivot (keep_singletons : Bool) (codes : Nat → Nat)
    (t : Split_task) : Nat :=
  find_pivot codes
    (fun c => decide (c &&& levelMask (split_task_level keep_singletons codes t) ≠ 0))
    t.m_begin (t.m_end - t.m_begin)

/-- One task of `split_kernel`: decide between leaf (`output_count = 0`) and
split (`output_count` 1 or 2), allocate output-task slots at the current
counter value, emit the child tasks, allocate a leaf slot if needed, write
the parent node and, for a leaf, the leaf record. The slot allocator hands
out `offset = ` current counter value; the counters advance by the requested
amounts. -/
def split_kernel_task (max_leaf_size : Nat) (keep_singletons : Bool)
    (codes : Nat → Nat) (out_nodes_count : Nat)
    (st : SplitState) (t : Split_task) : SplitState :=
  let level := split_task_level keep_singletons codes t
  let split_index := split_task_pivot keep_singletons codes t
  let output_count : Nat :=
    if t.m_end - t.m_begin > max_leaf_size then
      if split_index = t.m_begin ∨ split_index = t.m_end then 1 else 2
    else 0
  let offset := st.out_tasks.length
  let children : List Split_task :=
    (if output_count ≥ 1 then
      [⟨out_nodes_count + offset, t.m_begin,
        (if output_count = 1 then t.m_end else split_index), level - 1⟩]
     else []) ++
    (if output_count = 2 then
      [⟨out_nodes_count + offset + 1, split_index, t.m_end, level - 1⟩]
     else [])
  let leaf_index := st.leaf_count
  let w1 := st.writer.write_node t.m_node
    (if output_count ≠ 0 then decide (split_index ≠ t.m_begin) else false)
    (if output_count ≠ 0 then decide (split_index ≠ t.m_end) else false)
    (if output_count ≠ 0 then out_nodes_count + offset else leaf_index)
  let w2 := if output_count = 0 then w1.write_leaf leaf_index t.m_begin t.m_end
    else w1
  ⟨st.out_tasks ++ children,
   st.leaf_count + (if output_count = 0 then 1 else 0), w2⟩

/-- One `split_kernel` launch over the whole input queue, linearized in task
order (the design states tasks are independent and order is immaterial). -/
def split_kernel (max_leaf_size : Nat) (keep_singletons : Bool)
    (codes : Nat → Nat) (out_nodes_count : Nat)
    (in_tasks : List Split_task) (st : SplitState) : SplitState :=
  in_tasks.foldl (split_kernel_task max_leaf_size keep_singletons codes
    out_nodes_count) st

/-- State threaded through one `gen_leaves_kernel` launch. -/
structure LeafGenState where
  leaf_count : Nat
  writer : TreeWriter
deriving DecidableEq, Repr

/-- One task of `gen_leaves_kernel`: allocate one leaf slot, write the parent
node as a leaf reference, write the leaf record. -/
def gen_leaves_kernel_task (st : LeafGenState) (t : Split_task) : LeafGenState :=
  let leaf_index := st.leaf_count
  ⟨st.leaf_count + 1,
   (st.writer.write_node t.m_node false false leaf_index).write_leaf
     leaf_index t.m_begin t.m_end⟩

/-- One `gen_leaves_kernel` launch over the whole input queue. -/
def gen_leaves_kernel (in_tasks : List Split_task) (st : LeafGenState) :
    LeafGenState :=
  in_tasks.foldl gen_leaves_kernel_task st

/-- State of the orchestrator `generate` between levels: the active input
queue, the running node count and the shared leaf counter / tree writer. -/
structure GenState where
  queue : List Split_task
  n_nodes : Nat
  leaf_count : Nat
  writer : TreeWriter
deriving DecidableEq, Repr

/-- The level-synchronous loop of `generate`: while the input queue is
non-empty and levels remain (`fuel` counts the host `level` variable from
`bits - 1` down to 0), zero the output counter, launch `split_kernel` with
`out_nodes_count = n_nodes`, accumulate the output count into `n_nodes`,
and swap the queues. -/
def generate_loop (max_leaf_size : Nat) (keep_singletons : Bool)
    (codes : Nat → Nat) : Nat → GenState → GenState
  | 0, g => g
  | fuel + 1, g =>
    if g.queue.isEmpty then g
    else
      let st := split_kernel max_leaf_size keep_singletons codes g.n_nodes
        g.queue ⟨[], g.leaf_count, g.writer⟩
      generate_loop max_leaf_size keep_singletons codes fuel
        ⟨st.out_tasks, g.n_nodes + st.out_tasks.length, st.leaf_count, st.writer⟩

/-- `generate`: seed one task `(0, 0, n_codes, bits - 1)`, run the
level-synchronous loop for the `bits` available levels, then finalize any
remaining tasks through `gen_leaves_kernel`. Storage reservation calls have
no observable effect and are not modelled. -/
def generate (codes : Nat → Nat) (n_codes bits max_leaf_size : Nat)
    (keep_singletons : Bool) : GenState :=
  let g0 : GenState := ⟨[⟨0, 0, n_codes, (bits : Int) - 1⟩], 1, 0, ⟨[], []⟩⟩
  let g1 := generate_loop max_leaf_size keep_singletons codes bits g0
  if g1.queue.isEmpty then g1
  else
    let st := gen_leaves_kernel g1.queue ⟨g1.leaf_count, g1.writer⟩
    ⟨g1.queue, g1.n_nodes, st.leaf_count, st.writer⟩

/-- Number of leaf records in `ls` whose `[begin, end)` range contains `i`. -/
def leafCover (ls : List LeafWrite) (i : Nat) : Nat :=
  ls.countP fun lw => decide (lw.leaf_begin ≤ i ∧ i < lw.leaf_end)

/-- Number of tasks in `q` whose `[begin, end)` range contains `i`. -/
def taskCover (q : List Split_task) (i : Nat) : Nat :=
  q.countP fun t => decide (t.m_begin ≤ i ∧ i < t.m_end)

/-- The two codes agree on every bit position from `start_level` down to 0
(vacuously so when `start_level < 0`). -/
def agreesOnBitsBelow (start_level : Int) (code0 code1 : Nat) : Prop :=
  ∀ l : Nat, (l : Int) ≤ start_level → code0.testBit l = code1.testBit l

/-- The return-value description of `find_leading_bit_difference` claimed by
the spec, at one input triple: the result is the highest bit position at or
below `start_level` where the codes differ, and is `-1` whenever the codes
agree on every bit position from `start_level` down to 0. -/
def flbdClaimStatement (s : Int) (c0 c1 : Nat) : Prop :=
  (agreesOnBitsBelow s c0 c1 → find_leading_bit_difference s c0 c1 = -1) ∧
  (¬ agreesOnBitsBelow s c0 c1 →
    0 ≤ find_leading_bit_difference s c0 c1 ∧
    find_leading_bit_difference s c0 c1 ≤ s ∧
    c0.testBit (find_leading_bit_difference s c0 c1).toNat ≠
      c1.testBit (find_leading_bit_difference s c0 c1).toNat ∧
    ∀ l : Nat, (l : Int) ≤ s → find_leading_bit_difference s c0 c1 < (l : Int) →
      c0.testBit l = c1.testBit l)

/-! ### Part 1 theorems -/

lemma testBit_255 (i : Nat) : Nat.testBit 255 i = decide (i < 8) := by
  have h : (255 : Nat) = 2 ^ 8 - 1 := by norm_num
  rw [h, Nat.testBit_two_pow_sub_one]

lemma testBit_high_mask (i : Nat) :
    Nat.testBit 0xFFFFFF00 i = (decide (8 ≤ i) && decide (i < 32)) := by
  have h : (0xFFFFFF00 : Nat) = (2 ^ 24 - 1) <<< 8 := by norm_num [Nat.shiftLeft_eq]
  rw [h, Nat.testBit_shiftLeft, Nat.testBit_two_pow_sub_one]
  by_cases h8 : 8 ≤ i
  · by_cases h32 : i < 32
    · simp [h8, h32, show i - 8 < 24 by omega, ge_iff_le]
    · simp [h8, h32, show ¬ (i - 8 < 24) by omega, ge_iff_le]
  · simp [ge_iff_le, h8]

lemma testBit_of_lt_256 {m i : Nat} (hm : m < 256) (hi : 8 ≤ i) :
    Nat.testBit m i = false := by
  apply Nat.testBit_lt_two_pow
  calc m < 256 := hm
    _ = 2 ^ 8 := by norm_num
    _ ≤ 2 ^ i := Nat.pow_le_pow_right (by norm_num) hi

/-- Claim C10: `set_child_mask` with an 8-bit mask updates exactly the mask
field, and `set_child_offset` with a 24-bit offset updates exactly the offset
field; in each case the other field is unchanged. -/
theorem set_child_fields_frame (n : Octree_node_base) (m c : Nat)
    (hn : n.m_packed_info < 2 ^ 32) (hm : m < 256) (hc : c < 2 ^ 24) :
    (n.set_child_mask m).get_child_mask = m ∧
    (n.set_child_mask m).get_child_offset = n.get_child_offset ∧
    (n.set_child_offset c).get_child_offset = c ∧
    (n.set_child_offset c).get_child_mask = n.get_child_mask := by
  obtain ⟨x⟩ := n
  simp only [Octree_node_base.set_child_mask, Octree_node_base.get_child_mask,
    Octree_node_base.set_child_offset, Octree_node_base.get_child_offset] at *
  have hshift : (c <<< 8) % 2 ^ 32 = c <<< 8 := by
    rw [Nat.shiftLeft_eq]
    apply Nat.mod_eq_of_lt
    have hc2 : c * 2 ^ 8 < 2 ^ 24 * 2 ^ 8 :=
      Nat.mul_lt_mul_of_lt_of_le hc (le_refl _) (by norm_num)
    calc c * 2 ^ 8 < 2 ^ 24 * 2 ^ 8 := hc2
      _ = 2 ^ 32 := by norm_num
  refine ⟨?_, ?_, ?_, ?_⟩
  · apply Nat.eq_of_testBit_eq
    intro i
    simp only [Nat.testBit_land, Nat.testBit_lor, testBit_255, testBit_high_mask]
    by_cases h : i < 8
    · simp [h, show ¬ (8 ≤ i) by omega]
    · simp [h, @testBit_of_lt_256 m i hm (by omega)]
  · apply Nat.eq_of_testBit_eq
    intro i
    rw [Nat.testBit_shiftRight, Nat.testBit_shiftRight, Nat.testBit_lor,
      Nat.testBit_land, testBit_high_mask, testBit_of_lt_256 hm (by omega)]
    by_cases h : 8 + i < 32
    · simp [h, show (8 : Nat) ≤ 8 + i by omega]
    · have hx : Nat.testBit x (8 + i) = false := by
        apply Nat.testBit_lt_two_pow
        calc x < 2 ^ 32 := hn
          _ ≤ 2 ^ (8 + i) := Nat.pow_le_pow_right (by norm_num) (by omega)
      simp [h, hx]
  · rw [hshift]
    apply Nat.eq_of_testBit_eq
    intro i
    rw [Nat.testBit_shiftRight, Nat.testBit_lor, Nat.testBit_land, testBit_255,
      Nat.testBit_shiftLeft]
    simp [show ¬ (8 + i < 8) by omega, ge_iff_le, show (8 : Nat) ≤ 8 + i by omega,
      show 8 + i - 8 = i by omega]
  · rw [hshift]
    apply Nat.eq_of_testBit_eq
    intro i
    simp only [Nat.testBit_land, Nat.testBit_lor, testBit_255,
      Nat.testBit_shiftLeft, ge_iff_le]
    by_cases h : i < 8
    · simp [h, show ¬ (8 ≤ i) by omega]
    · simp [h]

/-- Witness for C10 at a concrete packed node, mask and offset. -/
theorem set_child_fields_frame_witness :
    ((⟨0x12345678⟩ : Octree_node_base).set_child_mask 5).get_child_mask = 5 ∧
    ((⟨0x12345678⟩ : Octree_node_base).set_child_mask 5).get_child_offset =
      (⟨0x12345678⟩ : Octree_node_base).get_child_offset ∧
    ((⟨0x12345678⟩ : Octree_node_base).set_child_offset 7).get_child_offset = 7 ∧
    ((⟨0x12345678⟩ : Octree_node_base).set_child_offset 7).get_child_mask =
      (⟨0x12345678⟩ : Octree_node_base).get_child_mask :=
  set_child_fields_frame ⟨0x12345678⟩ 5 7 (by decide) (by decide) (by decide)

/-- Claim C3 (code bug): the full constructor combines `(index << 8)` and the
mask with `&`, so `Octree_node_base(1, 1)` packs `0` — the node reads back
mask `0` (a leaf) — whereas the documented packing `(offset << 8) | mask`
gives `257` with mask `1`. -/
theorem ofMaskIndex_drops_fields :
    (Octree_node_base.ofMaskIndex 1 1).m_packed_info = 0 ∧
    (Octree_node_base.ofMaskIndex 1 1).get_child_mask = 0 ∧
    (Octree_node_base.ofMaskIndex 1 1).get_child_offset = 0 ∧
    (((1 <<< 8) ||| 1 : Nat) = 257 ∧ (257 &&& 0xFF : Nat) = 1) := by decide

/-- Claim C2 (code bug): on the node with mask `1` and offset `0`, octant `0`
is active and the spec value is `0`; the host variant returns `0` but the
device variant, whose shifted mask is not truncated to 8 bits before the
population count, returns `1`. -/
theorem get_octant_device_miscounts :
    (⟨1⟩ : Octree_node_base).get_child_mask &&& (1 <<< 0) ≠ 0 ∧
    get_octant_host ⟨1⟩ 0 = octantSpecValue 0 1 0 ∧
    octantSpecValue 0 1 0 = 0 ∧
    get_octant_device ⟨1⟩ 0 = 1 := by decide
/-! ### Part 2 helper lemmas -/

lemma find_pivot_aux_bounds (codes : Nat → Nat) (p : Nat → Bool) :
    ∀ fuel lo n, lo ≤ find_pivot_aux codes p fuel lo n ∧
      find_pivot_aux codes p fuel lo n ≤ lo + n := by
  intro fuel
  induction fuel with
  | zero => intro lo n; simp [find_pivot_aux]
  | succ fuel ih =>
    intro lo n
    simp only [find_pivot_aux]
    by_cases hn : n = 0
    · simp [hn]
    · simp only [hn, if_false]
      by_cases hp : p (codes (lo + n / 2))
      · simp only [hp, if_true]
        have h := ih lo (n / 2)
        have : n / 2 ≤ n := Nat.div_le_self n 2
        omega
      · rw [if_neg hp]
        have h := ih (lo + n / 2 + 1) (n - n / 2 - 1)
        have : n / 2 < n := Nat.div_lt_self (Nat.pos_of_ne_zero hn) (by norm_num)
        omega

lemma find_pivot_bounds (codes : Nat → Nat) (p : Nat → Bool) (lo n : Nat) :
    lo ≤ find_pivot codes p lo n ∧ find_pivot codes p lo n ≤ lo + n :=
  find_pivot_aux_bounds codes p n lo n

lemma split_task_pivot_bounds (ks : Bool) (codes : Nat → Nat) (t : Split_task)
    (hbe : t.m_begin ≤ t.m_end) :
    t.m_begin ≤ split_task_pivot ks codes t ∧
      split_task_pivot ks codes t ≤ t.m_end := by
  have h := find_pivot_bounds codes
    (fun c => decide (c &&& levelMask (split_task_level ks codes t) ≠ 0))
    t.m_begin (t.m_end - t.m_begin)
  unfold split_task_pivot
  omega

lemma flbd_scan_le (c0 c1 : Nat) : ∀ l : Nat, flbd_scan c0 c1 l ≤ (l : Int) := by
  intro l
  induction l with
  | zero => simp only [flbd_scan]; split <;> omega
  | succ l ih =>
    simp only [flbd_scan]
    split
    · omega
    · push_cast; omega

lemma find_leading_bit_difference_le (s : Int) (c0 c1 : Nat) :
    find_leading_bit_difference s c0 c1 ≤ s := by
  unfold find_leading_bit_difference
  split
  · have h := flbd_scan_le c0 c1 s.toNat
    omega
  · omega

lemma split_task_level_le (ks : Bool) (codes : Nat → Nat) (t : Split_task) :
    split_task_level ks codes t ≤ t.m_input := by
  unfold split_task_level
  split
  · omega
  · exact find_leading_bit_difference_le _ _ _

/-- Shape of `split_kernel_task` on a task that becomes a leaf. -/
lemma split_kernel_task_leaf (mls : Nat) (ks : Bool) (codes : Nat → Nat)
    (onc : Nat) (st : SplitState) (t : Split_task)
    (h : t.m_end - t.m_begin ≤ mls) :
    split_kernel_task mls ks codes onc st t =
      ⟨st.out_tasks, st.leaf_count + 1,
       (st.writer.write_node t.m_node false false st.leaf_count).write_leaf
         st.leaf_count t.m_begin t.m_end⟩ := by
  unfold split_kernel_task
  simp [show ¬ (t.m_end - t.m_begin > mls) by omega]

/-- Shape of `split_kernel_task` on a task that splits trivially (the pivot
coincides with one end of the range): one child task covering the unchanged
range at one bit level lower. -/
lemma split_kernel_task_one (mls : Nat) (ks : Bool) (codes : Nat → Nat)
    (onc : Nat) (st : SplitState) (t : Split_task)
    (h : mls < t.m_end - t.m_begin)
    (hsi : split_task_pivot ks codes t = t.m_begin ∨
      split_task_pivot ks codes t = t.m_end) :
    split_kernel_task mls ks codes onc st t =
      ⟨st.out_tasks ++ [⟨onc + st.out_tasks.length, t.m_begin, t.m_end,
         split_task_level ks codes t - 1⟩],
       st.leaf_count,
       st.writer.write_node t.m_node
         (decide (split_task_pivot ks codes t ≠ t.m_begin))
         (decide (split_task_pivot ks codes t ≠ t.m_end))
         (onc + st.out_tasks.length)⟩ := by
  unfold split_kernel_task
  simp [show t.m_end - t.m_begin > mls from h, hsi]

/-- Shape of `split_kernel_task` on a task that splits properly: two child
tasks `[begin, pivot)` and `[pivot, end)` at one bit level lower. -/
lemma split_kernel_task_two (mls : Nat) (ks : Bool) (codes : Nat → Nat)
    (onc : Nat) (st : SplitState) (t : Split_task)
    (h : mls < t.m_end - t.m_begin)
    (hsi : ¬ (split_task_pivot ks codes t = t.m_begin ∨
      split_task_pivot ks codes t = t.m_end)) :
    split_kernel_task mls ks codes onc st t =
      ⟨st.out_tasks ++
        [⟨onc + st.out_tasks.length, t.m_begin, split_task_pivot ks codes t,
           split_task_level ks codes t - 1⟩,
         ⟨onc + st.out_tasks.length + 1, split_task_pivot ks codes t, t.m_end,
           split_task_level ks codes t - 1⟩],
       st.leaf_count,
       st.writer.write_node t.m_node true true (onc + st.out_tasks.length)⟩ := by
  unfold split_kernel_task
  push_neg at hsi
  simp [show t.m_end - t.m_begin > mls from h, hsi.1, hsi.2]


lemma leafCover_append (l1 l2 : List LeafWrite) (i : Nat) :
    leafCover (l1 ++ l2) i = leafCover l1 i + leafCover l2 i :=
  List.countP_append _ l1 l2

lemma taskCover_append (q1 q2 : List Split_task) (i : Nat) :
    taskCover (q1 ++ q2) i = taskCover q1 i + taskCover q2 i :=
  List.countP_append _ q1 q2

/-- Processing one task preserves the total range cover: the task's own
`[begin, end)` cover moves into the leaf it writes or into the child task
ranges it emits. -/
lemma split_kernel_task_cover (mls : Nat) (ks : Bool) (codes : Nat → Nat)
    (onc : Nat) (st : SplitState) (t : Split_task)
    (hbe : t.m_begin ≤ t.m_end) (i : Nat) :
    leafCover (split_kernel_task mls ks codes onc st t).writer.leaves i +
      taskCover (split_kernel_task mls ks codes onc st t).out_tasks i =
    leafCover st.writer.leaves i + taskCover st.out_tasks i +
      taskCover [t] i := by
  by_cases h : t.m_end - t.m_begin ≤ mls
  · rw [split_kernel_task_leaf mls ks codes onc st t h]
    simp only [TreeWriter.write_leaf, TreeWriter.write_node, leafCover, taskCover,
      List.countP_append, List.countP_cons, List.countP_nil]
    dsimp only
    simp only [decide_eq_true_eq]
    split_ifs <;> omega
  · have hpiv := split_task_pivot_bounds ks codes t hbe
    by_cases hsi : split_task_pivot ks codes t = t.m_begin ∨
        split_task_pivot ks codes t = t.m_end
    · rw [split_kernel_task_one mls ks codes onc st t (by omega) hsi]
      simp only [TreeWriter.write_node, leafCover, taskCover,
        List.countP_append, List.countP_cons, List.countP_nil]
      dsimp only
      simp only [decide_eq_true_eq]
      split_ifs <;> omega
    · rw [split_kernel_task_two mls ks codes onc st t (by omega) hsi]
      push_neg at hsi
      simp only [TreeWriter.write_node, leafCover, taskCover,
        List.countP_append, List.countP_cons, List.countP_nil]
      dsimp only
      simp only [decide_eq_true_eq]
      split_ifs <;> omega

/-- Processing one task can only append to the output queue, and every
appended child has a non-empty range and a strictly smaller bit level. -/
lemma split_kernel_task_children (mls : Nat) (ks : Bool) (codes : Nat → Nat)
    (onc : Nat) (st : SplitState) (t : Split_task)
    (hbt : t.m_begin < t.m_end) :
    ∀ c ∈ (split_kernel_task mls ks codes onc st t).out_tasks.drop
      st.out_tasks.length,
      c.m_begin < c.m_end ∧ c.m_input < t.m_input := by
  have hlev : split_task_level ks codes t ≤ t.m_input :=
    split_task_level_le ks codes t
  by_cases h : t.m_end - t.m_begin ≤ mls
  · rw [split_kernel_task_leaf mls ks codes onc st t h]
    simp [List.drop_length]
  · have hpiv := split_task_pivot_bounds ks codes t (by omega)
    by_cases hsi : split_task_pivot ks codes t = t.m_begin ∨
        split_task_pivot ks codes t = t.m_end
    · rw [split_kernel_task_one mls ks codes onc st t (by omega) hsi]
      simp only [List.drop_left, List.mem_singleton]
      rintro c rfl
      refine ⟨hbt, ?_⟩
      show split_task_level ks codes t - 1 < t.m_input
      omega
    · rw [split_kernel_task_two mls ks codes onc st t (by omega) hsi]
      push_neg at hsi
      simp only [List.drop_left, List.mem_cons, List.mem_singleton,
        List.not_mem_nil, or_false]
      rintro c (rfl | rfl)
      · refine ⟨?_, ?_⟩
        · show t.m_begin < split_task_pivot ks codes t
          omega
        · show split_task_level ks codes t - 1 < t.m_input
          omega
      · refine ⟨?_, ?_⟩
        · show split_task_pivot ks codes t < t.m_end
          omega
        · show split_task_level ks codes t - 1 < t.m_input
          omega

/-- Membership form of `split_kernel_task_children`. -/
lemma split_kernel_task_mem (mls : Nat) (ks : Bool) (codes : Nat → Nat)
    (onc : Nat) (st : SplitState) (t : Split_task)
    (hbt : t.m_begin < t.m_end) (c : Split_task)
    (hc : c ∈ (split_kernel_task mls ks codes onc st t).out_tasks) :
    c ∈ st.out_tasks ∨ (c.m_begin < c.m_end ∧ c.m_input < t.m_input) := by
  have hdrop := split_kernel_task_children mls ks codes onc st t hbt
  have hshape : (split_kernel_task mls ks codes onc st t).out_tasks =
      st.out_tasks ++ (split_kernel_task mls ks codes onc st t).out_tasks.drop
        st.out_tasks.length := by
    by_cases h : t.m_end - t.m_begin ≤ mls
    · rw [split_kernel_task_leaf mls ks codes onc st t h]
      simp [List.drop_length]
    · by_cases hsi : split_task_pivot ks codes t = t.m_begin ∨
          split_task_pivot ks codes t = t.m_end
      · rw [split_kernel_task_one mls ks codes onc st t (by omega) hsi]
        simp [List.drop_left]
      · rw [split_kernel_task_two mls ks codes onc st t (by omega) hsi]
        simp [List.drop_left]
  rw [hshape] at hc
  rcases List.mem_append.mp hc with h1 | h1
  · exact Or.inl h1
  · exact Or.inr (hdrop c h1)

lemma split_kernel_nil (mls : Nat) (ks : Bool) (codes : Nat → Nat)
    (onc : Nat) (st : SplitState) :
    split_kernel mls ks codes onc [] st = st := rfl

lemma split_kernel_cons (mls : Nat) (ks : Bool) (codes : Nat → Nat)
    (onc : Nat) (t : Split_task) (q : List Split_task) (st : SplitState) :
    split_kernel mls ks codes onc (t :: q) st =
      split_kernel mls ks codes onc q (split_kernel_task mls ks codes onc st t) :=
  rfl

lemma gen_leaves_kernel_cons (t : Split_task) (q : List Split_task)
    (st : LeafGenState) :
    gen_leaves_kernel (t :: q) st =
      gen_leaves_kernel q (gen_leaves_kernel_task st t) := rfl

lemma generate_loop_succ (mls : Nat) (ks : Bool) (codes : Nat → Nat)
    (fuel : Nat) (g : GenState) :
    generate_loop mls ks codes (fuel + 1) g =
      if g.queue.isEmpty then g
      else
        generate_loop mls ks codes fuel
          ⟨(split_kernel mls ks codes g.n_nodes g.queue
              ⟨[], g.leaf_count, g.writer⟩).out_tasks,
           g.n_nodes + (split_kernel mls ks codes g.n_nodes g.queue
              ⟨[], g.leaf_count, g.writer⟩).out_tasks.length,
           (split_kernel mls ks codes g.n_nodes g.queue
              ⟨[], g.leaf_count, g.writer⟩).leaf_count,
           (split_kernel mls ks codes g.n_nodes g.queue
              ⟨[], g.leaf_count, g.writer⟩).writer⟩ := rfl

/-- Cover preservation over one whole `split_kernel` launch. -/
lemma split_kernel_cover (mls : Nat) (ks : Bool) (codes : Nat → Nat)
    (onc : Nat) (i : Nat) :
    ∀ q st, (∀ t ∈ q, t.m_begin ≤ t.m_end) →
      leafCover (split_kernel mls ks codes onc q st).writer.leaves i +
        taskCover (split_kernel mls ks codes onc q st).out_tasks i =
      leafCover st.writer.leaves i + taskCover st.out_tasks i +
        taskCover q i := by
  intro q
  induction q with
  | nil => intro st _; simp [split_kernel_nil, taskCover]
  | cons t q ih =>
    intro st hq
    have ht := hq t (List.mem_cons_self t q)
    have hstep := split_kernel_task_cover mls ks codes onc st t ht i
    have hrest := ih (split_kernel_task mls ks codes onc st t)
      (fun u hu => hq u (List.mem_cons_of_mem t hu))
    rw [split_kernel_cons, hrest]
    have hsing : taskCover (t :: q) i = taskCover [t] i + taskCover q i := by
      simp [taskCover, List.countP_cons]
      omega
    omega

/-- Range non-emptiness is preserved over one whole `split_kernel` launch. -/
lemma split_kernel_mem (mls : Nat) (ks : Bool) (codes : Nat → Nat)
    (onc : Nat) :
    ∀ q st, (∀ t ∈ q, t.m_begin < t.m_end) →
      (∀ c ∈ st.out_tasks, c.m_begin < c.m_end) →
      ∀ c ∈ (split_kernel mls ks codes onc q st).out_tasks,
        c.m_begin < c.m_end := by
  intro q
  induction q with
  | nil => intro st _ hst c hc; exact hst c hc
  | cons t q ih =>
    intro st hq hst c hc
    rw [split_kernel_cons] at hc
    refine ih (split_kernel_task mls ks codes onc st t)
      (fun u hu => hq u (List.mem_cons_of_mem t hu)) ?_ c hc
    intro u hu
    rcases split_kernel_task_mem mls ks codes onc st t
        (hq t (List.mem_cons_self t q)) u hu with h | h
    · exact hst u h
    · exact h.1

/-- Range non-emptiness of queue tasks is preserved over the level loop. -/
lemma generate_loop_mem (mls : Nat) (ks : Bool) (codes : Nat → Nat) :
    ∀ fuel g, (∀ t ∈ g.queue, t.m_begin < t.m_end) →
      ∀ t ∈ (generate_loop mls ks codes fuel g).queue, t.m_begin < t.m_end := by
  intro fuel
  induction fuel with
  | zero => intro g hg; exact hg
  | succ fuel ih =>
    intro g hg
    rw [generate_loop_succ]
    split
    · exact hg
    · exact ih _ (fun c hc => split_kernel_mem mls ks codes g.n_nodes g.queue
        ⟨[], g.leaf_count, g.writer⟩ hg (by simp) c hc)

/-- Cover preservation over the level loop: leaves written so far plus
pending task ranges always cover each index the same number of times. -/
lemma generate_loop_cover (mls : Nat) (ks : Bool) (codes : Nat → Nat) (i : Nat) :
    ∀ fuel g, (∀ t ∈ g.queue, t.m_begin < t.m_end) →
      leafCover (generate_loop mls ks codes fuel g).writer.leaves i +
        taskCover (generate_loop mls ks codes fuel g).queue i =
      leafCover g.writer.leaves i + taskCover g.queue i := by
  intro fuel
  induction fuel with
  | zero => intro g _; rfl
  | succ fuel ih =>
    intro g hg
    rw [generate_loop_succ]
    split
    · rfl
    · rw [ih _ (fun c hc => split_kernel_mem mls ks codes g.n_nodes g.queue
        ⟨[], g.leaf_count, g.writer⟩ hg (by simp) c hc)]
      have h := split_kernel_cover mls ks codes g.n_nodes i g.queue
        ⟨[], g.leaf_count, g.writer⟩ (fun t ht => le_of_lt (hg t ht))
      dsimp only at h ⊢
      have hnil : taskCover [] i = 0 := rfl
      omega

/-- Cover effect of one whole `gen_leaves_kernel` launch: every task range
becomes a leaf range. -/
lemma gen_leaves_kernel_cover (i : Nat) :
    ∀ q st, leafCover (gen_leaves_kernel q st).writer.leaves i =
      leafCover st.writer.leaves i + taskCover q i := by
  intro q
  induction q with
  | nil => intro st; simp [gen_leaves_kernel, taskCover]
  | cons t q ih =>
    intro st
    rw [gen_leaves_kernel_cons, ih]
    simp only [gen_leaves_kernel_task, TreeWriter.write_leaf, TreeWriter.write_node,
      leafCover, taskCover, List.countP_append, List.countP_cons, List.countP_nil]
    dsimp only
    simp only [decide_eq_true_eq]
    split_ifs <;> omega

/-! ### Part 2 claim theorems -/

/-- Claim C1: for every build over `n > 0` sorted keys, the leaf ranges
written via `write_leaf` partition `[0, n)`: every index below `n` lies in
exactly one written leaf range — no gap, no overlap, no duplication. -/
theorem generate_leaf_partition (codes : Nat → Nat) (n bits mls : Nat)
    (ks : Bool) (hn : 0 < n) (i : Nat) (hi : i < n) :
    leafCover (generate codes n bits mls ks).writer.leaves i = 1 := by
  have hseed : ∀ t ∈ ((⟨[⟨0, 0, n, (bits : Int) - 1⟩], 1, 0, ⟨[], []⟩⟩ :
      GenState)).queue, t.m_begin < t.m_end := by
    intro t ht
    simp only [List.mem_singleton] at ht
    subst ht
    exact hn
  have hloop := generate_loop_cover mls ks codes i bits
    ⟨[⟨0, 0, n, (bits : Int) - 1⟩], 1, 0, ⟨[], []⟩⟩ hseed
  have hcov0 : leafCover [] i = 0 := rfl
  have hcov1 : taskCover [(⟨0, 0, n, (bits : Int) - 1⟩ : Split_task)] i = 1 := by
    simp [taskCover, List.countP_cons, List.countP_nil, decide_eq_true_eq, hi]
  simp only [generate]
  by_cases hq : (generate_loop mls ks codes bits
      ⟨[⟨0, 0, n, (bits : Int) - 1⟩], 1, 0, ⟨[], []⟩⟩).queue.isEmpty
  · rw [if_pos hq]
    rw [List.isEmpty_iff] at hq
    rw [hq] at hloop
    have hnil : taskCover [] i = 0 := rfl
    dsimp only at hloop ⊢
    omega
  · rw [if_neg hq]
    dsimp only at hloop ⊢
    rw [gen_leaves_kernel_cover]
    dsimp only
    omega

/-- Witness for C1 on the two sorted keys `0, 1` with one key bit. -/
theorem generate_leaf_partition_witness :
    leafCover (generate (fun k => k) 2 1 1 false).writer.leaves 0 = 1 :=
  generate_leaf_partition (fun k => k) 2 1 1 false (by decide) 0 (by decide)

/-- Claim C4: in the Split Stage a task becomes a leaf — no output task
emitted, exactly one leaf slot allocated, the leaf record `(begin, end)`
written — if and only if its range size is at most `max_leaf_size`; and
whenever `max_leaf_size ≥ 1`, every task whose range has size 1 becomes a
leaf. -/
theorem split_leaf_iff (mls : Nat) (ks : Bool) (codes : Nat → Nat)
    (onc : Nat) (st : SplitState) (t : Split_task)
    (hbe : t.m_begin ≤ t.m_end) :
    (((split_kernel_task mls ks codes onc st t).out_tasks = st.out_tasks ∧
      (split_kernel_task mls ks codes onc st t).leaf_count = st.leaf_count + 1 ∧
      (split_kernel_task mls ks codes onc st t).writer.leaves =
        st.writer.leaves ++ [⟨st.leaf_count, t.m_begin, t.m_end⟩]) ↔
      t.m_end - t.m_begin ≤ mls) ∧
    (1 ≤ mls → t.m_end = t.m_begin + 1 →
      (split_kernel_task mls ks codes onc st t).out_tasks = st.out_tasks ∧
      (split_kernel_task mls ks codes onc st t).leaf_count = st.leaf_count + 1 ∧
      (split_kernel_task mls ks codes onc st t).writer.leaves =
        st.writer.leaves ++ [⟨st.leaf_count, t.m_begin, t.m_end⟩]) := by
  have hback : t.m_end - t.m_begin ≤ mls →
      (split_kernel_task mls ks codes onc st t).out_tasks = st.out_tasks ∧
      (split_kernel_task mls ks codes onc st t).leaf_count = st.leaf_count + 1 ∧
      (split_kernel_task mls ks codes onc st t).writer.leaves =
        st.writer.leaves ++ [⟨st.leaf_count, t.m_begin, t.m_end⟩] := by
    intro h
    rw [split_kernel_task_leaf mls ks codes onc st t h]
    simp [TreeWriter.write_leaf, TreeWriter.write_node]
  refine ⟨⟨?_, hback⟩, fun h1 h2 => hback (by omega)⟩
  intro h
  by_contra hgt
  push_neg at hgt
  by_cases hsi : split_task_pivot ks codes t = t.m_begin ∨
      split_task_pivot ks codes t = t.m_end
  · rw [split_kernel_task_one mls ks codes onc st t hgt hsi] at h
    have := congrArg List.length h.1
    simp at this
  · rw [split_kernel_task_two mls ks codes onc st t hgt hsi] at h
    have := congrArg List.length h.1
    simp at this

/-- Witness for C4: the singleton task `[0, 1)` becomes a leaf. -/
theorem split_leaf_iff_witness :
    (split_kernel_task 1 false (fun k => k) 1 ⟨[], 0, ⟨[], []⟩⟩
      ⟨0, 0, 1, 0⟩).out_tasks = [] ∧
    (split_kernel_task 1 false (fun k => k) 1 ⟨[], 0, ⟨[], []⟩⟩
      ⟨0, 0, 1, 0⟩).leaf_count = 1 ∧
    (split_kernel_task 1 false (fun k => k) 1 ⟨[], 0, ⟨[], []⟩⟩
      ⟨0, 0, 1, 0⟩).writer.leaves = [⟨0, 0, 1⟩] :=
  (split_leaf_iff 1 false (fun k => k) 1 ⟨[], 0, ⟨[], []⟩⟩ ⟨0, 0, 1, 0⟩
    (by decide)).1.mpr (by decide)

/-- Claim C5: a task that needs a split emits exactly one child task covering
`[begin, end)` when the pivot coincides with either range end, otherwise
exactly two child tasks covering `[begin, pivot)` and `[pivot, end)`, all at
one bit level lower, and the `k`-th emitted child's node index is
`out_nodes_count + offset + k`, with `offset` the slot base handed out by the
allocator (the output-task counter value). -/
theorem split_children_emission (mls : Nat) (ks : Bool) (codes : Nat → Nat)
    (onc : Nat) (st : SplitState) (t : Split_task)
    (h : mls < t.m_end - t.m_begin) :
    ((split_task_pivot ks codes t = t.m_begin ∨
      split_task_pivot ks codes t = t.m_end) →
      (split_kernel_task mls ks codes onc st t).out_tasks =
        st.out_tasks ++ [⟨onc + st.out_tasks.length, t.m_begin, t.m_end,
          split_task_level ks codes t - 1⟩]) ∧
    (¬ (split_task_pivot ks codes t = t.m_begin ∨
      split_task_pivot ks codes t = t.m_end) →
      (split_kernel_task mls ks codes onc st t).out_tasks =
        st.out_tasks ++
          [⟨onc + st.out_tasks.length, t.m_begin, split_task_pivot ks codes t,
            split_task_level ks codes t - 1⟩,
           ⟨onc + st.out_tasks.length + 1, split_task_pivot ks codes t, t.m_end,
            split_task_level ks codes t - 1⟩]) := by
  constructor
  · intro hsi
    rw [split_kernel_task_one mls ks codes onc st t h hsi]
  · intro hsi
    rw [split_kernel_task_two mls ks codes onc st t h hsi]

/-- Witness for C5: the two keys `0, 1` split at bit 0 into two children with
node indices `out_nodes_count + offset + 0` and `out_nodes_count + offset + 1`. -/
theorem split_children_emission_witness :
    (split_kernel_task 1 true (fun k => k) 1 ⟨[], 0, ⟨[], []⟩⟩
      ⟨0, 0, 2, 0⟩).out_tasks =
      [⟨1, 0, 1, -1⟩, ⟨2, 1, 2, -1⟩] :=
  (split_children_emission 1 true (fun k => k) 1 ⟨[], 0, ⟨[], []⟩⟩
    ⟨0, 0, 2, 0⟩ (by decide)).2 (by decide)

/-- Claim C9: on any task, the Leaf-Generation Stage's effect on the leaf
counter and the tree writer is identical to the Split Stage's
`output_count = 0` branch, which also leaves the output task queue
untouched. -/
theorem gen_leaves_matches_split_leaf (mls : Nat) (ks : Bool)
    (codes : Nat → Nat) (onc : Nat) (st : SplitState) (t : Split_task)
    (h : t.m_end - t.m_begin ≤ mls) :
    (split_kernel_task mls ks codes onc st t).out_tasks = st.out_tasks ∧
    (split_kernel_task mls ks codes onc st t).leaf_count =
      (gen_leaves_kernel_task ⟨st.leaf_count, st.writer⟩ t).leaf_count ∧
    (split_kernel_task mls ks codes onc st t).writer =
      (gen_leaves_kernel_task ⟨st.leaf_count, st.writer⟩ t).writer := by
  rw [split_kernel_task_leaf mls ks codes onc st t h]
  exact ⟨rfl, rfl, rfl⟩

/-- Witness for C9 on the singleton task `[0, 1)`. -/
theorem gen_leaves_matches_split_leaf_witness :
    (split_kernel_task 2 false (fun k => k) 1 ⟨[], 5, ⟨[], []⟩⟩
      ⟨3, 0, 1, 0⟩).out_tasks = [] ∧
    (split_kernel_task 2 false (fun k => k) 1 ⟨[], 5, ⟨[], []⟩⟩
      ⟨3, 0, 1, 0⟩).leaf_count =
      (gen_leaves_kernel_task ⟨5, ⟨[], []⟩⟩ ⟨3, 0, 1, 0⟩).leaf_count ∧
    (split_kernel_task 2 false (fun k => k) 1 ⟨[], 5, ⟨[], []⟩⟩
      ⟨3, 0, 1, 0⟩).writer =
      (gen_leaves_kernel_task ⟨5, ⟨[], []⟩⟩ ⟨3, 0, 1, 0⟩).writer :=
  gen_leaves_matches_split_leaf 2 false (fun k => k) 1 ⟨[], 5, ⟨[], []⟩⟩
    ⟨3, 0, 1, 0⟩ (by decide)

/-- Claim C7: in a build over `n > 0` keys, every queue state reached by the
level loop — the seed queue at fuel 0 included — contains only tasks with
`begin < end`, and every child task emitted for a live parent task has a
non-empty range and a bit level strictly below its parent's. -/
theorem tasks_wellformed (codes : Nat → Nat) (n bits mls : Nat) (ks : Bool)
    (hn : 0 < n) :
    (∀ fuel, ∀ t ∈ (generate_loop mls ks codes fuel
        ⟨[⟨0, 0, n, (bits : Int) - 1⟩], 1, 0, ⟨[], []⟩⟩).queue,
      t.m_begin < t.m_end) ∧
    (∀ onc (st : SplitState) (t : Split_task), t.m_begin < t.m_end →
      ∀ c ∈ (split_kernel_task mls ks codes onc st t).out_tasks.drop
          st.out_tasks.length,
        c.m_begin < c.m_end ∧ c.m_input < t.m_input) := by
  constructor
  · intro fuel
    apply generate_loop_mem
    intro t ht
    simp only [List.mem_singleton] at ht
    subst ht
    exact hn
  · intro onc st t hbt
    exact split_kernel_task_children mls ks codes onc st t hbt

/-- Witness for C7: in the build over keys `0, 1`, the task `[0, 1)` sits in
the queue after one round and has a non-empty range; its sibling check uses
the emission part on the seed task. -/
theorem tasks_wellformed_witness :
    ((⟨1, 0, 1, -1⟩ : Split_task).m_begin < (⟨1, 0, 1, -1⟩ : Split_task).m_end) ∧
    ((⟨7, 0, 1, -1⟩ : Split_task).m_begin < (⟨7, 0, 1, -1⟩ : Split_task).m_end ∧
      (⟨7, 0, 1, -1⟩ : Split_task).m_input < (⟨0, 0, 2, 0⟩ : Split_task).m_input) :=
  ⟨(tasks_wellformed (fun k => k) 2 1 1 false (by decide)).1 1 ⟨1, 0, 1, -1⟩
     (by decide),
   (tasks_wellformed (fun k => k) 2 1 1 false (by decide)).2 7 ⟨[], 0, ⟨[], []⟩⟩
     ⟨0, 0, 2, 0⟩ (by decide) ⟨7, 0, 1, -1⟩ (by decide)⟩

/-- Every leaf appended by one split task is bounded by `max_leaf_size`. -/
lemma split_kernel_task_leaves (mls : Nat) (ks : Bool) (codes : Nat → Nat)
    (onc : Nat) (st : SplitState) (t : Split_task) :
    (split_kernel_task mls ks codes onc st t).writer.leaves =
      st.writer.leaves ∨
    ((split_kernel_task mls ks codes onc st t).writer.leaves =
      st.writer.leaves ++ [⟨st.leaf_count, t.m_begin, t.m_end⟩] ∧
      t.m_end - t.m_begin ≤ mls) := by
  by_cases h : t.m_end - t.m_begin ≤ mls
  · right
    rw [split_kernel_task_leaf mls ks codes onc st t h]
    exact ⟨by simp [TreeWriter.write_leaf, TreeWriter.write_node], h⟩
  · left
    by_cases hsi : split_task_pivot ks codes t = t.m_begin ∨
        split_task_pivot ks codes t = t.m_end
    · rw [split_kernel_task_one mls ks codes onc st t (by omega) hsi]
      simp [TreeWriter.write_node]
    · rw [split_kernel_task_two mls ks codes onc st t (by omega) hsi]
      simp [TreeWriter.write_node]

/-- Leaf-size bound over a whole `split_kernel` launch. -/
lemma split_kernel_leaves_bound (mls : Nat) (ks : Bool) (codes : Nat → Nat)
    (onc : Nat) :
    ∀ q st lw, lw ∈ (split_kernel mls ks codes onc q st).writer.leaves →
      lw ∈ st.writer.leaves ∨ lw.leaf_end - lw.leaf_begin ≤ mls := by
  intro q
  induction q with
  | nil => intro st lw hlw; exact Or.inl hlw
  | cons t q ih =>
    intro st lw hlw
    rw [split_kernel_cons] at hlw
    rcases ih (split_kernel_task mls ks codes onc st t) lw hlw with h | h
    · rcases split_kernel_task_leaves mls ks codes onc st t with h2 | h2
      · rw [h2] at h
        exact Or.inl h
      · rw [h2.1] at h
        rcases List.mem_append.mp h with h3 | h3
        · exact Or.inl h3
        · right
          simp only [List.mem_singleton] at h3
          subst h3
          exact h2.2
    · exact Or.inr h

/-- Claim C8: every leaf written by the Split Stage satisfies
`end - begin ≤ max_leaf_size`; the Leaf-Generation finalize path instead
writes its leaf record unconditionally, whatever the range size. -/
theorem leaf_size_bound (mls : Nat) (ks : Bool) (codes : Nat → Nat)
    (onc : Nat) :
    (∀ q st lw, lw ∈ (split_kernel mls ks codes onc q st).writer.leaves →
      lw ∈ st.writer.leaves ∨ lw.leaf_end - lw.leaf_begin ≤ mls) ∧
    (∀ (st : LeafGenState) (t : Split_task),
      (gen_leaves_kernel_task st t).writer.leaves =
        st.writer.leaves ++ [⟨st.leaf_count, t.m_begin, t.m_end⟩]) := by
  constructor
  · exact split_kernel_leaves_bound mls ks codes onc
  · intro st t
    simp [gen_leaves_kernel_task, TreeWriter.write_node, TreeWriter.write_leaf]

/-- Witness for C8: the leaf written for the singleton task `[0, 1)` is
within the bound, and the finalize path writes an oversized leaf `[0, 9)`
verbatim. -/
theorem leaf_size_bound_witness :
    ((⟨0, 0, 1⟩ : LeafWrite) ∈ ([] : List LeafWrite) ∨
      (⟨0, 0, 1⟩ : LeafWrite).leaf_end - (⟨0, 0, 1⟩ : LeafWrite).leaf_begin ≤ 1) ∧
    (gen_leaves_kernel_task ⟨0, ⟨[], []⟩⟩ ⟨0, 0, 9, 0⟩).writer.leaves =
      [⟨0, 0, 9⟩] :=
  ⟨(leaf_size_bound 1 false (fun k => k) 1).1 [⟨0, 0, 1, 0⟩] ⟨[], 0, ⟨[], []⟩⟩
     ⟨0, 0, 1⟩ (by decide),
   (leaf_size_bound 1 false (fun k => k) 1).2 ⟨0, ⟨[], []⟩⟩ ⟨0, 0, 9, 0⟩⟩

/-- Full characterization of the downward scan: either all bits from `l`
down to 0 agree and the scan returns `-1`, or it returns the highest
differing bit position at or below `l`. -/
lemma flbd_scan_spec (c0 c1 : Nat) : ∀ l : Nat,
    (flbd_scan c0 c1 l = -1 ∧ ∀ j : Nat, j ≤ l → c0.testBit j = c1.testBit j) ∨
    (0 ≤ flbd_scan c0 c1 l ∧ flbd_scan c0 c1 l ≤ (l : Int) ∧
     c0.testBit (flbd_scan c0 c1 l).toNat ≠ c1.testBit (flbd_scan c0 c1 l).toNat ∧
     ∀ j : Nat, j ≤ l → flbd_scan c0 c1 l < (j : Int) →
       c0.testBit j = c1.testBit j) := by
  intro l
  induction l with
  | zero =>
    by_cases h : c0.testBit 0 = c1.testBit 0
    · left
      refine ⟨by simp [flbd_scan, h], fun j hj => ?_⟩
      have : j = 0 := by omega
      subst this
      exact h
    · right
      have hb : (c0.testBit 0 != c1.testBit 0) = true := bne_iff_ne.mpr h
      have hr : flbd_scan c0 c1 0 = 0 := by
        show (if (c0.testBit 0 != c1.testBit 0) = true then (0 : Int) else -1) = 0
        rw [if_pos hb]
      rw [hr]
      refine ⟨le_refl 0, by omega, ?_, fun j hj hlt => by omega⟩
      simpa using h
  | succ l ih =>
    by_cases h : c0.testBit (l + 1) = c1.testBit (l + 1)
    · have hr : flbd_scan c0 c1 (l + 1) = flbd_scan c0 c1 l := by
        simp [flbd_scan, h]
      rcases ih with ⟨h1, h2⟩ | ⟨h1, h2, h3, h4⟩
      · left
        refine ⟨by rw [hr, h1], fun j hj => ?_⟩
        rcases Nat.lt_or_ge j (l + 1) with hj2 | hj2
        · exact h2 j (by omega)
        · have : j = l + 1 := by omega
          subst this
          exact h
      · right
        rw [hr]
        refine ⟨h1, by push_cast; omega, h3, fun j hj hlt => ?_⟩
        rcases Nat.lt_or_ge j (l + 1) with hj2 | hj2
        · exact h4 j (by omega) hlt
        · have : j = l + 1 := by omega
          subst this
          exact h
    · right
      have hr : flbd_scan c0 c1 (l + 1) = (l : Int) + 1 := by
        simp [flbd_scan, h]
      rw [hr]
      refine ⟨by omega, by omega, ?_, fun j hj hlt => by omega⟩
      have : ((l : Int) + 1).toNat = l + 1 := by omega
      rw [this]
      exact h

/-- Claim C6 counterexample: at `start_level = -2` (reachable once the
recomputed level of an all-equal range has been decremented twice) the codes
vacuously agree on all bit positions from `start_level` down to 0, yet the
function returns `-2`, not `-1`. -/
theorem flbd_claim_false_at_neg_start : ¬ flbdClaimStatement (-2) 0 0 := by
  intro h
  have h1 := h.1 (fun l hl => rfl)
  rw [show find_leading_bit_difference (-2) 0 0 = -2 from by decide] at h1
  exact absurd h1 (by decide)

/-- Claim C6 as amended: for `start_level < 0` the function returns
`start_level` unchanged; for `start_level ≥ 0` it returns `-1` exactly when
the codes agree on all bit positions from `start_level` down to 0 and
otherwise the highest differing bit position at or below `start_level`; and
with `keep_singletons` disabled the Split Stage replaces a task's bit level
by this function applied to `key[begin]` and `key[end-1]`. -/
theorem flbd_amended (s : Int) (c0 c1 : Nat) (codes : Nat → Nat)
    (t : Split_task) :
    (s < 0 → find_leading_bit_difference s c0 c1 = s) ∧
    (0 ≤ s → agreesOnBitsBelow s c0 c1 →
      find_leading_bit_difference s c0 c1 = -1) ∧
    (0 ≤ s → ¬ agreesOnBitsBelow s c0 c1 →
      0 ≤ find_leading_bit_difference s c0 c1 ∧
      find_leading_bit_difference s c0 c1 ≤ s ∧
      c0.testBit (find_leading_bit_difference s c0 c1).toNat ≠
        c1.testBit (find_leading_bit_difference s c0 c1).toNat ∧
      (∀ l : Nat, (l : Int) ≤ s → find_leading_bit_difference s c0 c1 < (l : Int) →
        c0.testBit l = c1.testBit l)) ∧
    split_task_level false codes t =
      find_leading_bit_difference t.m_input (codes t.m_begin)
        (codes (t.m_end - 1)) := by
  refine ⟨?_, ?_, ?_, rfl⟩
  · intro hs
    unfold find_leading_bit_difference
    rw [if_neg (by omega)]
  · intro hs hagree
    unfold find_leading_bit_difference
    rw [if_pos hs]
    rcases flbd_scan_spec c0 c1 s.toNat with ⟨h1, _⟩ | ⟨h1, h2, h3, _⟩
    · exact h1
    · exfalso
      apply h3
      apply hagree
      omega
  · intro hs hagree
    unfold find_leading_bit_difference agreesOnBitsBelow at *
    rw [if_pos hs] at *
    rcases flbd_scan_spec c0 c1 s.toNat with ⟨h1, h2⟩ | ⟨h1, h2, h3, h4⟩
    · exfalso
      exact hagree (fun l hl => h2 l (by omega))
    · exact ⟨h1, by omega, h3, fun l hl hlt => h4 l (by omega) hlt⟩

/-- Witness for C6 (amended): the negative-level clause at `-2`, the
all-agree clause at level 3 on equal codes, and a differing pair. -/
theorem flbd_amended_witness :
    find_leading_bit_difference (-2) 0 0 = -2 ∧
    find_leading_bit_difference 3 5 5 = -1 ∧
    0 ≤ find_leading_bit_difference 3 5 1 :=
  ⟨(flbd_amended (-2) 0 0 (fun k => k) ⟨0, 0, 1, 0⟩).1 (by decide),
   (flbd_amended 3 5 5 (fun k => k) ⟨0, 0, 1, 0⟩).2.1 (by decide)
     (fun l hl => rfl),
   ((flbd_amended 3 5 1 (fun k => k) ⟨0, 0, 1, 0⟩).2.2.1 (by decide)
     (fun hagree => by
        have := hagree 2 (by omega)
        simp [Nat.testBit] at this)).1⟩

lemma popcAux_congr : ∀ f1 f2 n, n ≤ f1 → n ≤ f2 →
    popcAux f1 n = popcAux f2 n := by
  intro f1
  induction f1 with
  | zero =>
    intro f2 n h1 _
    have : n = 0 := by omega
    subst this
    cases f2 <;> simp [popcAux]
  | succ f1 ih =>
    intro f2 n h1 h2
    cases f2 with
    | zero =>
      have : n = 0 := by omega
      subst this
      simp [popcAux]
    | succ f2 =>
      by_cases hn : n = 0
      · simp [popcAux, hn]
      · have hhalf : n / 2 < n := Nat.div_lt_self (Nat.pos_of_ne_zero hn) (by norm_num)
        simp only [popcAux, hn, if_false]
        rw [ih f2 (n / 2) (by omega) (by omega)]

lemma popc_unfold (n : Nat) :
    popc n = if n = 0 then 0 else n % 2 + popc (n / 2) := by
  by_cases hn : n = 0
  · simp [popc, popcAux, hn]
  · rw [if_neg hn]
    show popcAux n n = _
    obtain ⟨m, rfl⟩ : ∃ m, n = m + 1 := ⟨n - 1, by omega⟩
    simp only [popcAux, hn, if_false]
    congr 1
    exact popcAux_congr m ((m + 1) / 2) ((m + 1) / 2) (by omega) (le_refl _)

lemma popc_double (m : Nat) : popc (m * 2) = popc m := by
  rw [popc_unfold (m * 2)]
  by_cases hm : m = 0
  · simp [hm, popc, popcAux]
  · rw [if_neg (by omega)]
    have h2 : m * 2 % 2 = 0 := by omega
    have h3 : m * 2 / 2 = m := by omega
    rw [h2, h3, Nat.zero_add]

lemma popc_mul_two_pow (m : Nat) : ∀ k, popc (m * 2 ^ k) = popc m := by
  intro k
  induction k with
  | zero => simp
  | succ k ih =>
    have : m * 2 ^ (k + 1) = m * 2 ^ k * 2 := by ring
    rw [this, popc_double, ih]

/-- The host-domain `get_octant` meets the spec contract for every node and
every octant index below 8: the `uint8` truncation keeps exactly the mask
bits at positions strictly below `i`, so the population count is the rank of
octant `i` among the active children. -/
lemma get_octant_host_spec (n : Octree_node_base) (i : Nat) (hi : i < 8) :
    get_octant_host n i =
      if n.get_child_mask &&& (1 <<< i) ≠ 0 then
        octantSpecValue n.get_child_offset n.get_child_mask i
      else kInvalid := by
  unfold get_octant_host octantSpecValue
  dsimp only
  have key : (n.get_child_mask <<< (8 - i)) % 256 =
      n.get_child_mask % 2 ^ i * 2 ^ (8 - i) := by
    rw [Nat.shiftLeft_eq]
    have hexp : i + (8 - i) = 8 := by omega
    have h256 : (256 : Nat) = 2 ^ i * 2 ^ (8 - i) := by
      rw [← pow_add, hexp]
      norm_num
    rw [h256, Nat.mul_mod_mul_right]
  rw [key, popc_mul_two_pow]

end SlashSandbox
